import Mathlib

/-!
Verification of the hash-bin delegation example
(`examples/repo_example/hashed_bin_delegation.py`).

The partitioner constants and functions (`PREFIX_LEN`, `NUMBER_OF_PREFIXES`,
`BIN_SIZE`, `_bin_name`, `generate_hash_bins`, `find_hash_bin`) are embedded
as Lean functions parameterised by the number of bins (the source fixes
`NUMBER_OF_BINS = 32`; the spec quantifies over the configured bin count).
`hashlib.sha256` is embedded as a full executable SHA-256 over byte lists.
The delegation-building script (roles dictionary, wiring loop, target
insertion, sign-and-persist loop) is embedded as explicit state passing over
association lists, which model Python (ordered) dictionaries.
-/

namespace HashedBin

/-- Digit-count worker: one digit when `n < 16`, else one more than the
digit count of `n / 16`; `fuel` bounds the recursion (any `fuel ≥ n` is
enough, since `n / 16 < n` for `n ≥ 16`). -/
def hexLenAux : Nat → Nat → Nat
  | 0, _ => 1
  | fuel + 1, n => if n < 16 then 1 else hexLenAux fuel (n / 16) + 1

/-- Number of hex digits of `n`, i.e. `len(f"{n:x}")` in Python
(one digit for `n = 0`). -/
def hexLen (n : Nat) : Nat := hexLenAux n n

/-- `PREFIX_LEN = len(f"{NUMBER_OF_BINS - 1:x}")`. -/
def PREFIX_LEN (numBins : Nat) : Nat := hexLen (numBins - 1)

/-- `NUMBER_OF_PREFIXES = 16 ** PREFIX_LEN`. -/
def NUMBER_OF_PREFIXES (numBins : Nat) : Nat := 16 ^ PREFIX_LEN numBins

/-- `BIN_SIZE = NUMBER_OF_PREFIXES // NUMBER_OF_BINS` (floor division). -/
def BIN_SIZE (numBins : Nat) : Nat := NUMBER_OF_PREFIXES numBins / numBins

/-- Zero-left-padded lowercase hex of `n` to `width` digits:
`f"{n:0{width}x}"`. -/
def hexPad (width n : Nat) : String :=
  let ds := Nat.toDigits 16 n
  ⟨List.replicate (width - ds.length) '0' ++ ds⟩

/-- `_bin_name(low, high)`: a single padded hex prefix when `low == high`,
otherwise the two bounds joined by `"-"`. -/
def bin_name (numBins low high : Nat) : String :=
  if low = high then hexPad (PREFIX_LEN numBins) low
  else hexPad (PREFIX_LEN numBins) low ++ "-" ++ hexPad (PREFIX_LEN numBins) high

/-- Python `range(0, stop, step)` for `step > 0`: the multiples of `step`
below `stop`, in ascending order (`⌈stop/step⌉` of them). -/
def pyRange (stop step : Nat) : List Nat :=
  (List.range ((stop + step - 1) / step)).map (· * step)

/-- `generate_hash_bins()`: for each `low` in
`range(0, NUMBER_OF_PREFIXES, BIN_SIZE)`, the bin name for
`[low, low + BIN_SIZE - 1]` together with the padded hex strings of the
prefixes `range(low, low + BIN_SIZE)` the bin serves. -/
def generate_hash_bins (numBins : Nat) : List (String × List String) :=
  (pyRange (NUMBER_OF_PREFIXES numBins) (BIN_SIZE numBins)).map (fun low =>
    let high := low + BIN_SIZE numBins - 1
    (bin_name numBins low high,
      (List.range' low (BIN_SIZE numBins)).map (hexPad (PREFIX_LEN numBins))))

/-- The numeric `[low, high]` range of each bin generated by
`generate_hash_bins`, taken from the same iteration. -/
def binRanges (numBins : Nat) : List (Nat × Nat) :=
  (pyRange (NUMBER_OF_PREFIXES numBins) (BIN_SIZE numBins)).map (fun low =>
    (low, low + BIN_SIZE numBins - 1))

end HashedBin

namespace Sha256

/-- Truncation to a 32-bit word. -/
def w32 (n : Nat) : Nat := n % 4294967296

/-- Right rotation of a 32-bit word by `n` places. -/
def rotr (n x : Nat) : Nat := x / 2 ^ n + x % 2 ^ n * 2 ^ (32 - n)

/-- The 64 SHA-256 round constants (FIPS 180-4, 0x428a2f98, 0x71374491,
..., 0xc67178f2), written in decimal. -/
def K : List Nat :=
  [1116352408, 1899447441, 3049323471, 3921009573, 961987163,
   1508970993, 2453635748, 2870763221, 3624381080, 310598401,
   607225278, 1426881987, 1925078388, 2162078206, 2614888103,
   3248222580, 3835390401, 4022224774, 264347078, 604807628,
   770255983, 1249150122, 1555081692, 1996064986, 2554220882,
   2821834349, 2952996808, 3210313671, 3336571891, 3584528711,
   113926993, 338241895, 666307205, 773529912, 1294757372,
   1396182291, 1695183700, 1986661051, 2177026350, 2456956037,
   2730485921, 2820302411, 3259730800, 3345764771, 3516065817,
   3600352804, 4094571909, 275423344, 430227734, 506948616,
   659060556, 883997877, 958139571, 1322822218, 1537002063,
   1747873779, 1955562222, 2024104815, 2227730452, 2361852424,
   2428436474, 2756734187, 3204031479, 3329325298]

/-- The eight initial hash values (FIPS 180-4, 0x6a09e667 ... 0x5be0cd19),
written in decimal. -/
def H0 : List Nat :=
  [1779033703, 3144134277, 1013904242, 2773480762,
   1359893119, 2600822924, 528734635, 1541459225]

/-- Big-endian packing of bytes into 32-bit words, four at a time. -/
def bytesToWords : List Nat → List Nat
  | b0 :: b1 :: b2 :: b3 :: rest =>
      (((b0 * 256 + b1) * 256 + b2) * 256 + b3) :: bytesToWords rest
  | _ => []

/-- Message-schedule extension: `acc` holds the words produced so far, most
recent first; each step prepends
`σ₁(W[i-2]) + W[i-7] + σ₀(W[i-15]) + W[i-16]` (mod 2³²). -/
def schedExtend : Nat → List Nat → List Nat
  | 0, acc => acc
  | n + 1, acc =>
      let w2 := acc.getD 1 0
      let w7 := acc.getD 6 0
      let w15 := acc.getD 14 0
      let w16 := acc.getD 15 0
      let s0 := rotr 7 w15 ^^^ rotr 18 w15 ^^^ (w15 / 2 ^ 3)
      let s1 := rotr 17 w2 ^^^ rotr 19 w2 ^^^ (w2 / 2 ^ 10)
      schedExtend n (w32 (s1 + w7 + s0 + w16) :: acc)

/-- The full 64-word message schedule of one 64-byte block. -/
def schedule (block : List Nat) : List Nat :=
  (schedExtend 48 (bytesToWords block).reverse).reverse

/-- One round of the compression loop on the state `[a,b,c,d,e,f,g,h]`. -/
def round (st : List Nat) (wk : Nat × Nat) : List Nat :=
  match st with
  | [a, b, c, d, e, f, g, h] =>
      let S1 := rotr 6 e ^^^ rotr 11 e ^^^ rotr 25 e
      let ch := (e &&& f) ^^^ ((4294967295 ^^^ e) &&& g)
      let t1 := w32 (h + S1 + ch + wk.2 + wk.1)
      let S0 := rotr 2 a ^^^ rotr 13 a ^^^ rotr 22 a
      let mj := (a &&& b) ^^^ (a &&& c) ^^^ (b &&& c)
      let t2 := w32 (S0 + mj)
      [w32 (t1 + t2), a, b, c, w32 (d + t1), e, f, g]
  | _ => st

/-- Compression of one 64-byte block into the running hash `h`. -/
def compressBlock (h : List Nat) (block : List Nat) : List Nat :=
  let final := ((schedule block).zip K).foldl round h
  h.zipWith (fun x y => w32 (x + y)) final

/-- Folds `compressBlock` over successive 64-byte chunks; `fuel` bounds the
recursion (any value ≥ the number of chunks gives the true result). -/
def sha256Blocks : Nat → List Nat → List Nat → List Nat
  | _, h, [] => h
  | 0, h, _ :: _ => h
  | fuel + 1, h, msg => sha256Blocks fuel (compressBlock h (msg.take 64)) (msg.drop 64)

/-- Number of zero bytes in the SHA-256 padding of an `L`-byte message. -/
def padZeros (L : Nat) : Nat := (64 - (L + 9) % 64) % 64

/-- The 8-byte big-endian encoding of the bit length `n`. -/
def lenBytes (n : Nat) : List Nat :=
  [n / 2 ^ 56 % 256, n / 2 ^ 48 % 256, n / 2 ^ 40 % 256, n / 2 ^ 32 % 256,
   n / 2 ^ 24 % 256, n / 2 ^ 16 % 256, n / 2 ^ 8 % 256, n % 256]

/-- Big-endian bytes of one 32-bit word. -/
def wordBytes (w : Nat) : List Nat :=
  [w / 2 ^ 24 % 256, w / 2 ^ 16 % 256, w / 2 ^ 8 % 256, w % 256]

/-- SHA-256 of a byte list, as its 32 digest bytes. -/
def sha256 (msg : List Nat) : List Nat :=
  let padded := msg ++ 128 :: List.replicate (padZeros msg.length) 0
    ++ lenBytes (8 * msg.length)
  (sha256Blocks padded.length H0 padded).flatMap wordBytes

/-- Lowercase hex digest characters of a byte list (`hexdigest()`). -/
def hexdigest (bytes : List Nat) : List Char :=
  bytes.flatMap (fun b => [Nat.digitChar (b / 16), Nat.digitChar (b % 16)])

/-- UTF-8 encoding of one Unicode code point. -/
def utf8Char (n : Nat) : List Nat :=
  if n < 128 then [n]
  else if n < 2048 then [192 + n / 64, 128 + n % 64]
  else if n < 65536 then [224 + n / 4096, 128 + n / 64 % 64, 128 + n % 64]
  else [240 + n / 262144, 128 + n / 4096 % 64, 128 + n / 64 % 64, 128 + n % 64]

/-- `path.encode("utf-8")`: the UTF-8 bytes of a string. -/
def strBytes (s : String) : List Nat := s.data.flatMap (fun c => utf8Char c.toNat)

end Sha256

namespace HashedBin

/-- Value of one hex digit character, as `int(_, 16)` reads it (digest
characters are always valid lowercase hex digits; other characters, on which
Python would raise, are given value 0). -/
def hexVal (c : Char) : Nat :=
  if '0' ≤ c ∧ c ≤ '9' then c.toNat - 48
  else if 'a' ≤ c ∧ c ≤ 'f' then c.toNat - 87
  else if 'A' ≤ c ∧ c ≤ 'F' then c.toNat - 55
  else 0

/-- `int(s, 16)` on a list of hex digit characters. -/
def parseHexChars (l : List Char) : Nat := l.foldl (fun a c => 16 * a + hexVal c) 0

/-- The numeric hash prefix `find_hash_bin` computes for a path:
`int(sha256(path.encode("utf-8")).hexdigest()[:PREFIX_LEN], 16)`. -/
def pathPfx (numBins : Nat) (path : String) : Nat :=
  parseHexChars ((Sha256.hexdigest (Sha256.sha256 (Sha256.strBytes path))).take
    (PREFIX_LEN numBins))

/-- `find_hash_bin(path)`: hash the path, take the leading `PREFIX_LEN` hex
digits as an integer `prefix`, compute `low = prefix - (prefix % BIN_SIZE)`
and `high = low + BIN_SIZE - 1`, and return `_bin_name(low, high)`. -/
def find_hash_bin (numBins : Nat) (path : String) : String :=
  bin_name numBins
    (pathPfx numBins path - pathPfx numBins path % BIN_SIZE numBins)
    (pathPfx numBins path - pathPfx numBins path % BIN_SIZE numBins
      + BIN_SIZE numBins - 1)

end HashedBin

namespace HashedBin

/-- `SPEC_VERSION = "1.0.19"`. -/
def SPEC_VERSION : String := "1.0.19"

/-- Modelled from the spec: key provisioning (`generate_ed25519_key` /
`securesystemslib`, an external collaborator, not part of src/) yields a
keypair with a content-derived key id for each of the two key names; the key
id is modelled as an opaque identifier derived from the key name, so the two
provisioned keys are distinct. -/
def keyid (keyName : String) : String := keyName ++ "-keyid"

/-- Modelled from the spec: the public-key record embedded in the parent's
delegation key table (`Key.from_securesystemslib_key`), abstracted as an
opaque string derived from the key name. -/
def pubkey (keyName : String) : String := keyName ++ "-public"

/-- `keys["bin-n"]["keyid"]`. -/
def binNKey : String := keyid "bin-n"

/-- `keys["bins"]["keyid"]`. -/
def binsKey : String := keyid "bins"

/-- The artifact record stored per target path (`TargetFile`): length,
hashes, and custom metadata; its contents come from the external
`TargetFile.from_file` collaborator and are opaque to the core. -/
structure TargetFileInfo where
  length : Nat
  hashes : List (String × String)
  custom : List (String × String)
deriving DecidableEq, Repr

/-- `DelegatedRole(name, keyids, threshold, terminating, path_hash_prefixes)`. -/
structure DelegatedRole where
  name : String
  keyids : List String
  threshold : Nat
  terminating : Bool
  path_hash_prefixes : List String
deriving DecidableEq, Repr

/-- `Delegations(keys, roles)`: key table and ordered role mapping, both
modelled as association lists in insertion order (Python dicts preserve
insertion order). -/
structure Delegations where
  keys : List (String × String)
  roles : List (String × DelegatedRole)
deriving DecidableEq, Repr

/-- `Targets(version, spec_version, expires, targets, delegations)`; the
absolute expiry datetime produced by `_in(days)` is abstracted as its `days`
argument. -/
structure Targets where
  version : Nat
  spec_version : String
  expires : Nat
  targets : List (String × TargetFileInfo)
  delegations : Option Delegations
deriving DecidableEq, Repr

/-- A signature attached to a metadata document. Modelled from the spec:
`sign(canonicalEncodingOf(document), key) -> signature`; the canonical
encoding that was signed is abstracted by the signed `Targets` value itself,
and the key by its key id. -/
structure Signature where
  keyid : String
  payload : Targets
deriving DecidableEq, Repr

/-- `Metadata[Targets](signed, signatures)`. -/
structure Metadata where
  signed : Targets
  signatures : List Signature
deriving DecidableEq, Repr

/-- Python (ordered) dict assignment `d[k] = v`: replaces the value in place
when the key is present, appends otherwise. -/
def odInsert {α : Type} (k : String) (v : α) : List (String × α) → List (String × α)
  | [] => [(k, v)]
  | (k', v') :: rest =>
      if k' = k then (k, v) :: rest else (k', v') :: odInsert k v rest

/-- Python dict lookup `d[k]`, as an `Option`. -/
def odLookup {α : Type} (k : String) : List (String × α) → Option α
  | [] => none
  | (k', v') :: rest => if k' = k then some v' else odLookup k rest

/-- In-place mutation of the value stored under `k` (`d[k].f(...)`);
no effect when the key is absent. -/
def odModify {α : Type} (k : String) (f : α → α) : List (String × α) → List (String × α)
  | [] => []
  | (k', v') :: rest =>
      if k' = k then (k', f v') :: rest else (k', v') :: odModify k f rest

/-- The preliminary delegating targets role `roles["bins"]`: version 1,
expiry `_in(365)`, empty targets, delegation key table holding the shared
bin-n key, empty role mapping. -/
def initialBins : Metadata :=
  { signed := { version := 1, spec_version := SPEC_VERSION, expires := 365,
                targets := [],
                delegations := some { keys := [(binNKey, pubkey "bin-n")],
                                      roles := [] } },
    signatures := [] }

/-- A fresh delegated targets role (bin_n): version 1, expiry `_in(7)`,
empty targets, no delegations. -/
def newBin : Metadata :=
  { signed := { version := 1, spec_version := SPEC_VERSION, expires := 7,
                targets := [], delegations := none },
    signatures := [] }

/-- `roles["bins"].signed.delegations.roles[bin_n_name] = DelegatedRole(
name=bin_n_name, keyids=[keys["bin-n"]["keyid"]], threshold=1,
terminating=False, path_hash_prefixes=bin_n_hash_prefixes)`. -/
def addRoleToDelegations (bn : String) (hps : List String) (m : Metadata) : Metadata :=
  let role : DelegatedRole :=
    { name := bn, keyids := [binNKey], threshold := 1,
      terminating := false, path_hash_prefixes := hps }
  let newDel := m.signed.delegations.map
    (fun d => { d with roles := odInsert bn role d.roles })
  { m with signed := { m.signed with delegations := newDel } }

/-- One iteration of the wiring loop: update the delegating role's mapping
with the bin's `DelegatedRole`, then create the delegated role's document. -/
def wireBin (st : List (String × Metadata)) (bin : String × List String) :
    List (String × Metadata) :=
  odInsert bin.1 newBin (odModify "bins" (addRoleToDelegations bin.1 bin.2) st)

/-- The `roles` dictionary after the wiring loop
`for bin_n_name, bin_n_hash_prefixes in generate_hash_bins(): ...`. -/
def rolesAfterWiring : List (String × Metadata) :=
  (generate_hash_bins 32).foldl wireBin [("bins", initialBins)]

/-- The delegation role mapping of the delegating ("bins") document in a
roles dictionary (empty when absent). -/
def parentRoles (st : List (String × Metadata)) : List (String × DelegatedRole) :=
  match odLookup "bins" st with
  | some m =>
      match m.signed.delegations with
      | some d => d.roles
      | none => []
  | none => []

/-- `roles[bin].signed.targets[target_path] = target_file_info` on one
document. -/
def setTarget (path : String) (info : TargetFileInfo) (m : Metadata) : Metadata :=
  { m with signed := { m.signed with
      targets := odInsert path info m.signed.targets } }

/-- The example's target path
`f"{local_path.parts[-2]}/{local_path.parts[-1]}"`. -/
def target_path : String := "repo_example/hashed_bin_delegation.py"

/-- The target-insertion step:
`roles[find_hash_bin(path)].signed.targets[path] = info`. -/
def addTargetToRoles (path : String) (info : TargetFileInfo)
    (st : List (String × Metadata)) : List (String × Metadata) :=
  odModify (find_hash_bin 32 path) (setTarget path info) st

/-- The roles dictionary after inserting the example's own target file
(whose `TargetFile.from_file` record is external input). -/
def rolesWithTarget (info : TargetFileInfo) : List (String × Metadata) :=
  addTargetToRoles target_path info rolesAfterWiring

/-- Modelled from the spec: `Metadata.sign` (tuf.api.metadata, a library
collaborator not under src/) produces a signature over the document's
canonical encoding with the given key and attaches it, leaving the document
carrying exactly that one signature. -/
def Metadata.sign (kid : String) (m : Metadata) : Metadata :=
  { m with signatures := [{ keyid := kid, payload := m.signed }] }

/-- The sign-and-persist loop: every role is signed, with `keys["bins"]` for
the "bins" role and `keys["bin-n"]` for every other role. -/
def signAll (st : List (String × Metadata)) : List (String × Metadata) :=
  st.map (fun r => (r.1, Metadata.sign (if r.1 = "bins" then binsKey else binNKey) r.2))

/-- The roles dictionary at the end of the script, after signing. -/
def finalRoles (info : TargetFileInfo) : List (String × Metadata) :=
  signAll (rolesWithTarget info)

/-- Boolean check that a list of ranges is strictly ascending (each range
ends before the next begins). -/
def ascRanges : List (Nat × Nat) → Bool
  | r1 :: r2 :: rest => decide (r1.2 < r2.1) && ascRanges (r2 :: rest)
  | _ => true

/-- A stand-in artifact record (the script's actual record comes from the
external `TargetFile.from_file` call). -/
def sampleInfo : TargetFileInfo := { length := 0, hashes := [], custom := [] }

/-- A freshly created bin document that has been signed with the shared
bin-n key. -/
def signedBin : Metadata := Metadata.sign binNKey newBin

end HashedBin

namespace HashedBin

/-! ## Arithmetic facts about the derived constants -/

/-- `hexLenAux` always reports at least one digit. -/
lemma hexLenAux_pos (fuel n : Nat) : 1 ≤ hexLenAux fuel n := by
  cases fuel with
  | zero => simp [hexLenAux]
  | succ f => simp only [hexLenAux]; split <;> omega

/-- With enough fuel, `n` fits in `hexLenAux fuel n` hex digits. -/
lemma lt_pow_hexLenAux : ∀ fuel n, n ≤ fuel → n < 16 ^ hexLenAux fuel n := by
  intro fuel
  induction fuel with
  | zero =>
      intro n hn
      interval_cases n
      simp [hexLenAux]
  | succ f ih =>
      intro n hn
      simp only [hexLenAux]
      split
      · next h => simpa using h
      · next h =>
          push_neg at h
          have hdf : n / 16 ≤ f := by
            have : n / 16 < n := Nat.div_lt_self (by omega) (by omega)
            omega
          have hih := ih (n / 16) hdf
          have hdm := Nat.div_add_mod n 16
          have hmod : n % 16 < 16 := Nat.mod_lt n (by omega)
          calc n = 16 * (n / 16) + n % 16 := hdm.symm
            _ < 16 * (16 ^ hexLenAux f (n / 16)) := by omega
            _ = 16 ^ (hexLenAux f (n / 16) + 1) := by ring

/-- Every `n` fits in `hexLen n` hex digits. -/
lemma lt_pow_hexLen (n : Nat) : n < 16 ^ hexLen n := lt_pow_hexLenAux n n le_rfl

/-- The prefix length is at least one digit (also for `numBins = 1`). -/
lemma PREFIX_LEN_pos (numBins : Nat) : 1 ≤ PREFIX_LEN numBins := hexLenAux_pos _ _

/-- The bin count never exceeds the prefix space. -/
lemma numBins_le_prefixSpace (numBins : Nat) :
    numBins ≤ NUMBER_OF_PREFIXES numBins := by
  have := lt_pow_hexLen (numBins - 1)
  unfold NUMBER_OF_PREFIXES PREFIX_LEN
  omega

/-- A power-of-two bin count divides the prefix space. -/
lemma pow2_dvd_prefixSpace (j : Nat) : 2 ^ j ∣ NUMBER_OF_PREFIXES (2 ^ j) := by
  have h1 : 2 ^ j ≤ NUMBER_OF_PREFIXES (2 ^ j) := numBins_le_prefixSpace _
  have h2 : NUMBER_OF_PREFIXES (2 ^ j) = 2 ^ (4 * PREFIX_LEN (2 ^ j)) := by
    unfold NUMBER_OF_PREFIXES
    rw [show (16 : Nat) = 2 ^ 4 by norm_num, ← pow_mul]
  rw [h2] at h1 ⊢
  exact pow_dvd_pow 2 ((Nat.pow_le_pow_iff_right (by norm_num)).mp h1)

/-- For a power-of-two bin count, `BIN_SIZE * numBins = NUMBER_OF_PREFIXES`. -/
lemma binSize_mul (j : Nat) :
    BIN_SIZE (2 ^ j) * 2 ^ j = NUMBER_OF_PREFIXES (2 ^ j) :=
  Nat.div_mul_cancel (pow2_dvd_prefixSpace j)

/-- For a power-of-two bin count the bin size is positive. -/
lemma binSize_pos (j : Nat) : 0 < BIN_SIZE (2 ^ j) :=
  Nat.div_pos (numBins_le_prefixSpace _) (Nat.pos_pow_of_pos j (by norm_num))

/-- When the step divides the stop, `range(0, s*q, s)` is the first `q`
multiples of `s`. -/
lemma pyRange_dvd (s q : Nat) (hs : 0 < s) :
    pyRange (s * q) s = (List.range q).map (· * s) := by
  unfold pyRange
  have h1 : (s * q + s - 1) / s = q := by
    have he : s * q + s - 1 = s * q + (s - 1) := by omega
    rw [he, Nat.mul_add_div hs, Nat.div_eq_of_lt (by omega)]
    omega
  rw [h1]

/-- The lows walked by `generate_hash_bins` for a power-of-two bin count. -/
lemma lows_eq (j : Nat) :
    pyRange (NUMBER_OF_PREFIXES (2 ^ j)) (BIN_SIZE (2 ^ j)) =
      (List.range (2 ^ j)).map (· * BIN_SIZE (2 ^ j)) := by
  rw [← binSize_mul j]
  exact pyRange_dvd _ _ (binSize_pos j)

/-- The bin ranges are the `numBins` blocks `[i*s, i*s+s-1]`. -/
lemma binRanges_eq (j : Nat) :
    binRanges (2 ^ j) = (List.range (2 ^ j)).map
      (fun i => (i * BIN_SIZE (2 ^ j),
                 i * BIN_SIZE (2 ^ j) + BIN_SIZE (2 ^ j) - 1)) := by
  unfold binRanges
  rw [lows_eq j, List.map_map]
  rfl

/-- C1: for every power-of-two `binCount` (automatically `≤ prefixSpace`),
`generate_hash_bins` yields exactly `binCount` bins, the bins' prefix ranges
`[low, high]` are pairwise disjoint, and their union is exactly
`[0, NUMBER_OF_PREFIXES - 1]`. -/
theorem c1_generate_bins_partition (numBins j : Nat) (hpow : numBins = 2 ^ j) :
    (generate_hash_bins numBins).length = numBins ∧
    List.Pairwise (fun r1 r2 => ∀ p : Nat,
      ¬(r1.1 ≤ p ∧ p ≤ r1.2 ∧ r2.1 ≤ p ∧ p ≤ r2.2)) (binRanges numBins) ∧
    ∀ p : Nat, (∃ r ∈ binRanges numBins, r.1 ≤ p ∧ p ≤ r.2) ↔
      p < NUMBER_OF_PREFIXES numBins := by
  subst hpow
  have hspos : 0 < BIN_SIZE (2 ^ j) := binSize_pos j
  have hmul : BIN_SIZE (2 ^ j) * 2 ^ j = NUMBER_OF_PREFIXES (2 ^ j) := binSize_mul j
  refine ⟨?_, ?_, ?_⟩
  · unfold generate_hash_bins
    rw [lows_eq j]
    simp
  · rw [binRanges_eq j, List.pairwise_map]
    refine List.Pairwise.imp ?_ (List.pairwise_lt_range (2 ^ j))
    intro i k hik
    intro p hp
    obtain ⟨h1, h2, h3, h4⟩ := hp
    have hstep : i * BIN_SIZE (2 ^ j) + BIN_SIZE (2 ^ j) ≤ k * BIN_SIZE (2 ^ j) := by
      calc i * BIN_SIZE (2 ^ j) + BIN_SIZE (2 ^ j) = (i + 1) * BIN_SIZE (2 ^ j) := by
            ring
        _ ≤ k * BIN_SIZE (2 ^ j) := Nat.mul_le_mul_right _ (by omega)
    omega
  · intro p
    constructor
    · rintro ⟨r, hr, h1, h2⟩
      rw [binRanges_eq j] at hr
      obtain ⟨i, hi, rfl⟩ := List.mem_map.mp hr
      rw [List.mem_range] at hi
      have hstep : i * BIN_SIZE (2 ^ j) + BIN_SIZE (2 ^ j) ≤ 2 ^ j * BIN_SIZE (2 ^ j) := by
        calc i * BIN_SIZE (2 ^ j) + BIN_SIZE (2 ^ j) = (i + 1) * BIN_SIZE (2 ^ j) := by
              ring
          _ ≤ 2 ^ j * BIN_SIZE (2 ^ j) := Nat.mul_le_mul_right _ (by omega)
      have hN : 2 ^ j * BIN_SIZE (2 ^ j) = NUMBER_OF_PREFIXES (2 ^ j) := by
        rw [mul_comm]; exact hmul
      omega
    · intro hp
      have hplt : p < BIN_SIZE (2 ^ j) * 2 ^ j := by omega
      have hdiv : p / BIN_SIZE (2 ^ j) < 2 ^ j := Nat.div_lt_of_lt_mul hplt
      refine ⟨(p / BIN_SIZE (2 ^ j) * BIN_SIZE (2 ^ j),
               p / BIN_SIZE (2 ^ j) * BIN_SIZE (2 ^ j) + BIN_SIZE (2 ^ j) - 1),
              ?_, ?_, ?_⟩
      · rw [binRanges_eq j]
        exact List.mem_map.mpr ⟨p / BIN_SIZE (2 ^ j), List.mem_range.mpr hdiv, rfl⟩
      · exact Nat.div_mul_le_self p _
      · have hdm := Nat.div_add_mod p (BIN_SIZE (2 ^ j))
        rw [Nat.mul_comm] at hdm
        have hmod : p % BIN_SIZE (2 ^ j) < BIN_SIZE (2 ^ j) := Nat.mod_lt p hspos
        omega

/-- C1 witness: the theorem at the source's configuration `binCount = 32`. -/
theorem c1_witness :
    (32 : Nat) = 2 ^ 5 ∧
    ((generate_hash_bins 32).length = 32 ∧
     List.Pairwise (fun r1 r2 => ∀ p : Nat,
       ¬(r1.1 ≤ p ∧ p ≤ r1.2 ∧ r2.1 ≤ p ∧ p ≤ r2.2)) (binRanges 32) ∧
     ∀ p : Nat, (∃ r ∈ binRanges 32, r.1 ≤ p ∧ p ≤ r.2) ↔
       p < NUMBER_OF_PREFIXES 32) :=
  ⟨by norm_num, c1_generate_bins_partition 32 5 (by norm_num)⟩

/-- C9: for `binCount = 1` the derivation degenerates as the spec states:
one hex digit of prefix length, a prefix space of 16, a bin size of 16, and
a single generated bin covering the whole range `[0, 15]`. -/
theorem c9_single_bin_degenerate :
    PREFIX_LEN 1 = 1 ∧ NUMBER_OF_PREFIXES 1 = 16 ∧ BIN_SIZE 1 = 16 ∧
    (generate_hash_bins 1).length = 1 ∧ binRanges 1 = [(0, 15)] := by decide

/-- C4 (evaluation at the failing input): with `binCount = 3` the source's
derivations go through without any validation or error and produce four
uneven bins, the last of which ends at 19, beyond the prefix space
`[0, 15]` — no `InvalidConfiguration` rejection exists in the code. -/
theorem c4_no_validation_binCount_3 :
    PREFIX_LEN 3 = 1 ∧ NUMBER_OF_PREFIXES 3 = 16 ∧ BIN_SIZE 3 = 5 ∧
    (generate_hash_bins 3).length = 4 ∧ (generate_hash_bins 3).length ≠ 3 ∧
    binRanges 3 = [(0, 4), (5, 9), (10, 14), (15, 19)] ∧
    (∃ r ∈ binRanges 3, NUMBER_OF_PREFIXES 3 ≤ r.2) := by decide

/-! ## The digest prefix is always in range -/

/-- Every byte of a SHA-256 digest is below 256. -/
lemma sha256_byte_lt (msg : List Nat) : ∀ b ∈ Sha256.sha256 msg, b < 256 := by
  intro b hb
  unfold Sha256.sha256 at hb
  rw [List.mem_flatMap] at hb
  obtain ⟨w, _, hw⟩ := hb
  simp only [Sha256.wordBytes, List.mem_cons, List.not_mem_nil, or_false] at hw
  rcases hw with rfl | rfl | rfl | rfl <;> exact Nat.mod_lt _ (by norm_num)

/-- `hexVal` inverts `Nat.digitChar` on hex digit values. -/
lemma hexVal_digitChar (v : Nat) (hv : v < 16) : hexVal (Nat.digitChar v) = v := by
  interval_cases v <;> decide

/-- Every character of the hex digest of a byte list reads back as a value
below 16. -/
lemma hexdigest_val_lt (bytes : List Nat) (hb : ∀ b ∈ bytes, b < 256) :
    ∀ c ∈ Sha256.hexdigest bytes, hexVal c < 16 := by
  intro c hc
  unfold Sha256.hexdigest at hc
  rw [List.mem_flatMap] at hc
  obtain ⟨b, hbm, hcm⟩ := hc
  have hblt := hb b hbm
  simp only [List.mem_cons, List.not_mem_nil, or_false] at hcm
  rcases hcm with rfl | rfl
  · have hd : b / 16 < 16 := by omega
    rw [hexVal_digitChar _ hd]; exact hd
  · have hm : b % 16 < 16 := Nat.mod_lt _ (by norm_num)
    rw [hexVal_digitChar _ hm]; exact hm

/-- Folding hex digits below 16 onto an accumulator below `A` stays below
`A * 16 ^ length`. -/
lemma parse_bound_aux (l : List Char) : ∀ a A : Nat, a < A →
    (∀ c ∈ l, hexVal c < 16) →
    l.foldl (fun a c => 16 * a + hexVal c) a < A * 16 ^ l.length := by
  induction l with
  | nil => intro a A ha _; simpa using ha
  | cons c t ih =>
      intro a A ha hall
      have hv : hexVal c < 16 := hall c (List.mem_cons_self c t)
      have h1 : 16 * a + hexVal c < 16 * A := by omega
      have h2 := ih (16 * a + hexVal c) (16 * A) h1
        (fun d hd => hall d (List.mem_cons_of_mem _ hd))
      simp only [List.foldl_cons, List.length_cons]
      calc t.foldl (fun a c => 16 * a + hexVal c) (16 * a + hexVal c)
          < 16 * A * 16 ^ t.length := h2
        _ = A * 16 ^ (t.length + 1) := by ring

/-- `int(s, 16)` on hex digits is below `16 ^ length`. -/
lemma parseHexChars_lt (l : List Char) (h : ∀ c ∈ l, hexVal c < 16) :
    parseHexChars l < 16 ^ l.length := by
  have := parse_bound_aux l 0 1 (by norm_num) h
  simpa [parseHexChars] using this

/-- The hash prefix of any path is inside the prefix space, for every bin
count (the digest supplies at least `min PREFIX_LEN 64` valid hex digits and
slicing never fails). -/
lemma pathPfx_lt (numBins : Nat) (path : String) :
    pathPfx numBins path < NUMBER_OF_PREFIXES numBins := by
  unfold pathPfx
  have hall : ∀ c ∈ (Sha256.hexdigest (Sha256.sha256 (Sha256.strBytes path))).take
      (PREFIX_LEN numBins), hexVal c < 16 := by
    intro c hc
    exact hexdigest_val_lt _ (sha256_byte_lt _) c (List.take_subset _ _ hc)
  have h1 := parseHexChars_lt _ hall
  have h2 : ((Sha256.hexdigest (Sha256.sha256 (Sha256.strBytes path))).take
      (PREFIX_LEN numBins)).length ≤ PREFIX_LEN numBins := by
    simp [List.length_take]
  calc parseHexChars _ < 16 ^ ((Sha256.hexdigest (Sha256.sha256
        (Sha256.strBytes path))).take (PREFIX_LEN numBins)).length := h1
    _ ≤ 16 ^ PREFIX_LEN numBins := Nat.pow_le_pow_right (by norm_num) h2
    _ = NUMBER_OF_PREFIXES numBins := rfl

/-- The low bound `find_hash_bin` computes is the floor multiple of the bin
size. -/
lemma low_eq_div_mul (pfx s : Nat) : pfx - pfx % s = pfx / s * s := by
  have hdm := Nat.div_add_mod pfx s
  rw [Nat.mul_comm] at hdm
  omega

/-- For a power-of-two bin count, the bin name `find_hash_bin` returns is
among the names `generate_hash_bins` yields. -/
lemma find_mem_generate (numBins j : Nat) (path : String)
    (hpow : numBins = 2 ^ j) :
    find_hash_bin numBins path ∈ (generate_hash_bins numBins).map Prod.fst := by
  subst hpow
  have hspos : 0 < BIN_SIZE (2 ^ j) := binSize_pos j
  have hmul : BIN_SIZE (2 ^ j) * 2 ^ j = NUMBER_OF_PREFIXES (2 ^ j) := binSize_mul j
  have hplt : pathPfx (2 ^ j) path < NUMBER_OF_PREFIXES (2 ^ j) := pathPfx_lt _ _
  have hnames : (generate_hash_bins (2 ^ j)).map Prod.fst =
      (List.range (2 ^ j)).map (fun i =>
        bin_name (2 ^ j) (i * BIN_SIZE (2 ^ j))
          (i * BIN_SIZE (2 ^ j) + BIN_SIZE (2 ^ j) - 1)) := by
    unfold generate_hash_bins
    rw [lows_eq j, List.map_map, List.map_map]
    rfl
  rw [hnames]
  have hdiv : pathPfx (2 ^ j) path / BIN_SIZE (2 ^ j) < 2 ^ j :=
    Nat.div_lt_of_lt_mul (by omega)
  refine List.mem_map.mpr ⟨pathPfx (2 ^ j) path / BIN_SIZE (2 ^ j),
    List.mem_range.mpr hdiv, ?_⟩
  unfold find_hash_bin
  rw [low_eq_div_mul]

/-- C2: for any power-of-two bin count and every path, `find_hash_bin`
returns one of the names generated by `generate_hash_bins`, and the path's
hash prefix lies in only one generated range, so no path is assigned outside
the generated set and none maps to two bins. -/
theorem c2_assign_in_generated (numBins j : Nat) (path : String)
    (hpow : numBins = 2 ^ j) :
    find_hash_bin numBins path ∈ (generate_hash_bins numBins).map Prod.fst ∧
    ∀ r1 ∈ binRanges numBins, ∀ r2 ∈ binRanges numBins,
      r1.1 ≤ pathPfx numBins path ∧ pathPfx numBins path ≤ r1.2 →
      r2.1 ≤ pathPfx numBins path ∧ pathPfx numBins path ≤ r2.2 → r1 = r2 := by
  refine ⟨find_mem_generate numBins j path hpow, ?_⟩
  subst hpow
  have hspos : 0 < BIN_SIZE (2 ^ j) := binSize_pos j
  intro r1 hr1 r2 hr2 hb1 hb2
  rw [binRanges_eq j] at hr1 hr2
  obtain ⟨i1, hi1, rfl⟩ := List.mem_map.mp hr1
  obtain ⟨i2, hi2, rfl⟩ := List.mem_map.mp hr2
  have hkey : ∀ i : Nat,
      i * BIN_SIZE (2 ^ j) ≤ pathPfx (2 ^ j) path ∧
      pathPfx (2 ^ j) path ≤ i * BIN_SIZE (2 ^ j) + BIN_SIZE (2 ^ j) - 1 →
      pathPfx (2 ^ j) path / BIN_SIZE (2 ^ j) = i := by
    intro i hi
    refine Nat.div_eq_of_lt_le ?_ ?_
    · exact hi.1
    · have : (i + 1) * BIN_SIZE (2 ^ j) = i * BIN_SIZE (2 ^ j) + BIN_SIZE (2 ^ j) := by
        ring
      rw [this]
      omega
  have h1 := hkey i1 hb1
  have h2 := hkey i2 hb2
  have : i1 = i2 := by omega
  subst this
  rfl

/-- C2 witness: the source's bin count 32 and its own target path. -/
theorem c2_witness :
    (32 : Nat) = 2 ^ 5 ∧
    (find_hash_bin 32 target_path ∈ (generate_hash_bins 32).map Prod.fst ∧
     ∀ r1 ∈ binRanges 32, ∀ r2 ∈ binRanges 32,
       r1.1 ≤ pathPfx 32 target_path ∧ pathPfx 32 target_path ≤ r1.2 →
       r2.1 ≤ pathPfx 32 target_path ∧ pathPfx 32 target_path ≤ r2.2 → r1 = r2) :=
  ⟨by norm_num, c2_assign_in_generated 32 5 target_path (by norm_num)⟩

/-- C10: `find_hash_bin` is total on all strings (the empty string
included): for any power-of-two bin count the parsed digest prefix always
lies in `[0, NUMBER_OF_PREFIXES - 1]`, and the returned name is the
well-formed bin name of the block `[low, low + BIN_SIZE - 1]` around it,
with `low` a multiple of `BIN_SIZE`. -/
theorem c10_find_hash_bin_total (numBins j : Nat) (hpow : numBins = 2 ^ j)
    (path : String) :
    pathPfx numBins path < NUMBER_OF_PREFIXES numBins ∧
    ∃ low, BIN_SIZE numBins ∣ low ∧ low ≤ pathPfx numBins path ∧
      pathPfx numBins path < low + BIN_SIZE numBins ∧
      find_hash_bin numBins path =
        bin_name numBins low (low + BIN_SIZE numBins - 1) := by
  subst hpow
  have hspos : 0 < BIN_SIZE (2 ^ j) := binSize_pos j
  refine ⟨pathPfx_lt _ _,
    pathPfx (2 ^ j) path - pathPfx (2 ^ j) path % BIN_SIZE (2 ^ j),
    ?_, Nat.sub_le _ _, ?_, rfl⟩
  · rw [low_eq_div_mul]
    exact Dvd.intro_left _ rfl
  · have hmod : pathPfx (2 ^ j) path % BIN_SIZE (2 ^ j) < BIN_SIZE (2 ^ j) :=
      Nat.mod_lt _ hspos
    omega

/-- C10 witness: bin count 32 and the empty string. -/
theorem c10_witness :
    (32 : Nat) = 2 ^ 5 ∧
    (pathPfx 32 "" < NUMBER_OF_PREFIXES 32 ∧
     ∃ low, BIN_SIZE 32 ∣ low ∧ low ≤ pathPfx 32 "" ∧
       pathPfx 32 "" < low + BIN_SIZE 32 ∧
       find_hash_bin 32 "" = bin_name 32 low (low + BIN_SIZE 32 - 1)) :=
  ⟨by norm_num, c10_find_hash_bin_total 32 5 (by norm_num) ""⟩

/-- C7: any path whose SHA-256 hex digest starts with the two digits "85"
is assigned to bin "80-87" when `binCount = 32`. -/
theorem c7_digest_85_goes_to_80_87 (path : String)
    (h : (Sha256.hexdigest (Sha256.sha256 (Sha256.strBytes path))).take 2 =
      ['8', '5']) :
    find_hash_bin 32 path = "80-87" := by
  have hPL : PREFIX_LEN 32 = 2 := by decide
  have hp : pathPfx 32 path = 133 := by
    unfold pathPfx
    rw [hPL, h]
    decide
  unfold find_hash_bin
  rw [hp]
  decide

/-- C7 witness: the example's own target path, whose digest starts "85". -/
theorem c7_witness :
    (Sha256.hexdigest (Sha256.sha256 (Sha256.strBytes target_path))).take 2 =
      ['8', '5'] ∧
    find_hash_bin 32 target_path = "80-87" :=
  ⟨by decide, c7_digest_85_goes_to_80_87 target_path (by decide)⟩

/-! ## Dictionary lemmas -/

/-- Looking up the key just assigned yields the assigned value. -/
lemma odLookup_odInsert_self {α : Type} (k : String) (v : α)
    (l : List (String × α)) : odLookup k (odInsert k v l) = some v := by
  induction l with
  | nil => simp [odInsert, odLookup]
  | cons h t ih =>
      obtain ⟨k', v'⟩ := h
      by_cases hk : k' = k <;> simp [odInsert, odLookup, hk, ih]

/-- Assignment under one key leaves lookups of other keys unchanged. -/
lemma odLookup_odInsert_ne {α : Type} (q k : String) (v : α)
    (l : List (String × α)) (h : q ≠ k) :
    odLookup q (odInsert k v l) = odLookup q l := by
  have hkq : k ≠ q := Ne.symm h
  induction l with
  | nil => simp [odInsert, odLookup, hkq]
  | cons hd t ih =>
      obtain ⟨k', v'⟩ := hd
      by_cases hk : k' = k
      · subst hk
        simp [odInsert, odLookup, hkq]
      · simp [odInsert, odLookup, hk, ih]

/-- In-place mutation under one key maps the value found there. -/
lemma odLookup_odModify_self {α : Type} (k : String) (f : α → α)
    (l : List (String × α)) :
    odLookup k (odModify k f l) = (odLookup k l).map f := by
  induction l with
  | nil => simp [odModify, odLookup]
  | cons hd t ih =>
      obtain ⟨k', v'⟩ := hd
      by_cases hk : k' = k <;> simp [odModify, odLookup, hk, ih]

/-- In-place mutation under one key leaves lookups of other keys unchanged. -/
lemma odLookup_odModify_ne {α : Type} (q k : String) (f : α → α)
    (l : List (String × α)) (h : q ≠ k) :
    odLookup q (odModify k f l) = odLookup q l := by
  have hkq : k ≠ q := Ne.symm h
  induction l with
  | nil => simp [odModify]
  | cons hd t ih =>
      obtain ⟨k', v'⟩ := hd
      by_cases hk : k' = k
      · subst hk
        simp [odModify, odLookup, hkq]
      · simp [odModify, odLookup, hk, ih]

/-- A key present in the dictionary has a value. -/
lemma odLookup_isSome_of_mem_keys {α : Type} (q : String)
    (l : List (String × α)) (h : q ∈ l.map Prod.fst) :
    (odLookup q l).isSome := by
  induction l with
  | nil => simp at h
  | cons hd t ih =>
      obtain ⟨k', v'⟩ := hd
      rw [List.map_cons] at h
      by_cases hk : k' = q
      · simp [odLookup, hk]
      · rcases List.mem_cons.mp h with h1 | h1
        · exact absurd h1.symm hk
        · simp [odLookup, hk, ih h1]

/-! ## The delegation graph built by the script -/

set_option maxRecDepth 8000 in
set_option maxHeartbeats 2000000 in
/-- C3: after the wiring loop with `binCount = 32`, the parent ("bins")
document's delegation role mapping has exactly 32 entries, in insertion
order equal to bin generation order; the generated ranges ascend; every
entry has threshold 1, terminating false and a non-empty
`path_hash_prefixes` list of `BIN_SIZE = 8` prefixes; and the 32 lists
together are exactly the 256 two-digit prefixes, without duplicates. -/
theorem c3_parent_delegation_mapping :
    (parentRoles rolesAfterWiring).length = 32 ∧
    (parentRoles rolesAfterWiring).map Prod.fst =
      (generate_hash_bins 32).map Prod.fst ∧
    (∀ e ∈ parentRoles rolesAfterWiring,
      e.2.threshold = 1 ∧ e.2.terminating = false ∧
      e.2.path_hash_prefixes.length = BIN_SIZE 32 ∧
      e.2.path_hash_prefixes ≠ []) ∧
    ascRanges (binRanges 32) = true ∧
    ((parentRoles rolesAfterWiring).flatMap
        (fun e => e.2.path_hash_prefixes)) =
      (List.range 256).map (hexPad 2) ∧
    ((parentRoles rolesAfterWiring).flatMap
        (fun e => e.2.path_hash_prefixes)).Nodup := by
  refine ⟨by decide, by decide, by decide, by decide, by decide, by decide⟩

/-- C5: after the sign-and-persist loop, every document in the roles
dictionary carries exactly one signature, produced with the parent
("bins") key for the parent document and the shared bin-n key for every
bin document, over that document's own signed content. -/
theorem c5_every_doc_single_signature (info : TargetFileInfo) (n : String)
    (m : Metadata) (h : (n, m) ∈ finalRoles info) :
    m.signatures = [{ keyid := if n = "bins" then binsKey else binNKey,
                      payload := m.signed }] := by
  unfold finalRoles signAll at h
  rw [List.mem_map] at h
  obtain ⟨⟨n', m'⟩, _, heq⟩ := h
  injection heq with h1 h2
  subst h1
  subst h2
  rfl

/-- C5 witness: the first bin document of the script's final state. -/
theorem c5_witness :
    ("00-07", Metadata.sign binNKey newBin) ∈ finalRoles sampleInfo ∧
    (Metadata.sign binNKey newBin).signatures =
      [{ keyid := if "00-07" = "bins" then binsKey else binNKey,
         payload := (Metadata.sign binNKey newBin).signed }] :=
  ⟨by decide, c5_every_doc_single_signature sampleInfo "00-07"
    (Metadata.sign binNKey newBin) (by decide)⟩

/-- C6 counterexample: applying the script's target insertion
(`roles[bin].signed.targets[path] = info`, a plain dictionary assignment)
to an already-signed document does not fail: it succeeds, changing the
signed content while leaving the signature list unchanged — the lone
signature still covers the old content, i.e. it is stale. -/
theorem c6_counterexample_silent_stale :
    (setTarget "pkg/a.py" sampleInfo signedBin).signed ≠ signedBin.signed ∧
    (setTarget "pkg/a.py" sampleInfo signedBin).signatures =
      signedBin.signatures ∧
    (setTarget "pkg/a.py" sampleInfo signedBin).signatures.map
      Signature.payload = [newBin.signed] ∧
    newBin.signed ≠ (setTarget "pkg/a.py" sampleInfo signedBin).signed := by
  refine ⟨by decide, by decide, by decide, by decide⟩

/-- C6 amended: inserting a target into an already-signed document does not
fail loudly; it silently stores the record in the document's target map and
leaves the existing signatures unchanged (and therefore stale). -/
theorem c6_amended_mutation_never_fails (m : Metadata) (path : String)
    (info : TargetFileInfo) (_hsigned : m.signatures ≠ []) :
    (setTarget path info m).signatures = m.signatures ∧
    odLookup path (setTarget path info m).signed.targets = some info :=
  ⟨rfl, odLookup_odInsert_self _ _ _⟩

/-- C6 amended witness: a signed bin document. -/
theorem c6_amended_witness :
    signedBin.signatures ≠ [] ∧
    ((setTarget "pkg/a.py" sampleInfo signedBin).signatures =
        signedBin.signatures ∧
      odLookup "pkg/a.py"
        (setTarget "pkg/a.py" sampleInfo signedBin).signed.targets =
        some sampleInfo) :=
  ⟨by decide,
    c6_amended_mutation_never_fails signedBin "pkg/a.py" sampleInfo (by decide)⟩

/-- C8: target insertion modifies only the artifact map of the document
named by `find_hash_bin`: every other role (the parent "bins" included)
reads back unchanged; the assigned document changes only by mapping
`setTarget` over it, which keeps version, spec version, expiry, delegations
and signatures, stores the record under the path (overwriting any prior
record there), and leaves all other paths untouched; and in the wired state
the assigned document always exists. -/
theorem c8_add_artifact_frame (st : List (String × Metadata)) (path : String)
    (info : TargetFileInfo) :
    (∀ n, n ≠ find_hash_bin 32 path →
      odLookup n (addTargetToRoles path info st) = odLookup n st) ∧
    odLookup (find_hash_bin 32 path) (addTargetToRoles path info st) =
      (odLookup (find_hash_bin 32 path) st).map (setTarget path info) ∧
    (∀ m : Metadata,
      (setTarget path info m).signed.version = m.signed.version ∧
      (setTarget path info m).signed.spec_version = m.signed.spec_version ∧
      (setTarget path info m).signed.expires = m.signed.expires ∧
      (setTarget path info m).signed.delegations = m.signed.delegations ∧
      (setTarget path info m).signatures = m.signatures ∧
      odLookup path (setTarget path info m).signed.targets = some info ∧
      ∀ q, q ≠ path → odLookup q (setTarget path info m).signed.targets =
        odLookup q m.signed.targets) ∧
    (odLookup (find_hash_bin 32 path) rolesAfterWiring).isSome := by
  refine ⟨?_, ?_, ?_, ?_⟩
  · intro n hn
    exact odLookup_odModify_ne n _ _ st hn
  · exact odLookup_odModify_self _ _ st
  · intro m
    exact ⟨rfl, rfl, rfl, rfl, rfl, odLookup_odInsert_self _ _ _,
      fun q hq => odLookup_odInsert_ne q _ _ _ hq⟩
  · apply odLookup_isSome_of_mem_keys
    have hkeys : rolesAfterWiring.map Prod.fst =
        "bins" :: (generate_hash_bins 32).map Prod.fst := by decide
    rw [hkeys]
    exact List.mem_cons_of_mem _ (find_mem_generate 32 5 path (by norm_num))

/-- C8 witness: the parent document is unchanged by inserting the example's
own target file. -/
theorem c8_witness :
    "bins" ≠ find_hash_bin 32 target_path ∧
    odLookup "bins" (addTargetToRoles target_path sampleInfo rolesAfterWiring) =
      odLookup "bins" rolesAfterWiring :=
  ⟨by decide,
    (c8_add_artifact_frame rolesAfterWiring target_path sampleInfo).1 "bins"
      (by decide)⟩

end HashedBin
